import Mathlib

/-!
Verification of the sekurkopio database backup/restore core.

The definitions below are a shallow embedding of the JavaScript source:

* `src/db/backup.js` — schema introspection results, the dependency
  resolver `getTableLoadOrder`, the metadata builder
  `dbBkpGenerateMetaInfo`, and the tracking-record insert `dbBkpInsert`.
* `src/requests/backup/restore.js` — the restore validator
  `verifyDbTables` and the two restore orchestrations
  `performBareFileRestore` (random access over blob objects) and
  `performTarRestore` (sequential archive stream).

Stateful JavaScript (object mutation, the D1/R2 I/O boundary) is modelled
by explicit state passing: the in-memory table descriptors are a list of
`TableDesc` records threaded through the traversal, the blob store is a
presence function `String → Bool`, the destination database is the list of
its table names, and JSON decoding at the I/O boundary is treated as
opaque (a member of a tar archive carries the metadata value its bytes
decode to).  Unbounded recursion in the source is modelled with an
explicit fuel parameter: the JavaScript call terminates exactly when some
fuel value makes the model return `some`.
-/

set_option maxHeartbeats 1000000

namespace Sekurkopio

/-! ## Dependency resolver (src/db/backup.js, getTableLoadOrder) -/

/-- One in-memory table descriptor as built by `dbBkpPopulateTableDetails`
(src/db/backup.js lines 115-198).  `name` is the table name, `deps` is the
list of keys of the `dependencies` object (each a table name referring to
the descriptor of that name in the same table list; the values of the JS
object are shared references into that list, so descriptor identity is
name identity), and `visited` models the traversal flag `table.visited`
that `getTableLoadOrder` writes onto the descriptor (`false` ≙ the field
is absent, which is how every descriptor starts out). -/
structure TableDesc where
  name : String
  deps : List String
  visited : Bool
deriving DecidableEq

/-- A foreign key constraint row as returned by
`pragma_foreign_key_list` and stored under the `constraints` key
(src/db/backup.js lines 89-97).  The JS field names are `table`, `from`
and `to`; `from` is a Lean keyword, hence `fromCol`/`toCol`. -/
structure ForeignKey where
  table : String
  fromCol : String
  toCol : String
deriving DecidableEq

/-- The keys of the `dependencies` object built from the constraint list
(src/db/backup.js lines 183-194): one entry per distinct constraint
target table, in first-occurrence order, self-references included. -/
def buildDependencies (constraints : List ForeignKey) : List String :=
  constraints.foldl (fun acc c => if c.table ∈ acc then acc else acc ++ [c.table]) []

/-- Look up the descriptor with the given name (JS property access
`tableList[name]`; object keys are unique, so first match is the match). -/
def findTable (st : List TableDesc) (n : String) : Option TableDesc :=
  st.find? (fun t => t.name = n)

/-- The dependency name list of the table named `n` (the keys of
`table.dependencies`); `[]` when there is no such descriptor. -/
def depsOf (st : List TableDesc) (n : String) : List String :=
  ((findTable st n).map TableDesc.deps).getD []

/-- The `visited` flag currently on the descriptor named `n`
(`table.visited !== true` in the source reads this flag; an absent
descriptor reads as unset). -/
def flagOf (st : List TableDesc) (n : String) : Bool :=
  ((findTable st n).map TableDesc.visited).getD false

/-- Write `table.visited = true` onto the descriptor named `n`
(src/db/backup.js line 232): the shared descriptor object is mutated in
place, modelled by updating the entry of that name in the threaded
descriptor list. -/
def setFlag (st : List TableDesc) (n : String) : List TableDesc :=
  st.map (fun t => if t.name = n then { t with visited := true } else t)

/-- Delete the `visited` flags from every descriptor
(src/db/backup.js lines 240-242: the `depth === 0` cleanup runs over the
top-level node, which holds every table). -/
def clearFlags (st : List TableDesc) : List TableDesc :=
  st.map (fun t => { t with visited := false })

/-- One level of `getTableLoadOrder` (src/db/backup.js lines 217-245):
iterate over the descriptors named by `ns` (the values of the node object,
in key-insertion order); for each, first recurse into its `dependencies`
via the callback `f`, then — only after the recursive call returns — test
the `visited` flag, and when it is not set, set it and append the table
name to the load order.  The recursion into the dependencies happens
unconditionally, before any visited check, exactly as in the source. -/
def visitStep (f : List String → List TableDesc → List String →
    Option (List TableDesc × List String)) :
    List String → List TableDesc → List String → Option (List TableDesc × List String)
  | [], st, o => some (st, o)
  | n :: rest, st, o =>
    match f (depsOf st n) st o with
    | none => none
    | some (st1, o1) =>
      if flagOf st1 n then visitStep f rest st1 o1
      else visitStep f rest (setFlag st1 n) (o1 ++ [n])

/-- The recursive traversal of `getTableLoadOrder`, indexed by the
recursion depth still available: `visitM fuel ns st o = none` means the
JavaScript call starting at the descriptors named `ns` does not return
within recursion depth `fuel`.  The source call terminates exactly when
some fuel makes this return `some`. -/
def visitM : Nat → List String → List TableDesc → List String →
    Option (List TableDesc × List String)
  | 0, ns, st, o =>
    match ns with
    | [] => some (st, o)
    | _ :: _ => none
  | fuel + 1, ns, st, o => visitStep (visitM fuel) ns st o

/-- The outer call `getTableLoadOrder(tables)` (src/db/backup.js line
343): traverse starting from every table, then (`depth === 0`) delete the
`visited` flags that were placed on the descriptors.  Returns the final
descriptor list together with the computed load order, or `none` when the
recursion does not return within depth `fuel`. -/
def getTableLoadOrderM (st : List TableDesc) (fuel : Nat) :
    Option (List TableDesc × List String) :=
  (visitM fuel (st.map TableDesc.name) st []).map (fun r => (clearFlags r.1, r.2))

/-- The descriptor names in list order (the keys of the table-list
object). -/
def tdNames (st : List TableDesc) : List String := st.map TableDesc.name

/-- The traversal-invariant part of the descriptor store: each
descriptor's name together with its dependency names, without the
`visited` flag. -/
def tdShape (st : List TableDesc) : List (String × List String) :=
  st.map (fun t => (t.name, t.deps))

/-- Dependency lookup on a shape (the adjacency view of the constraint
graph): the dependency names recorded for `n`, or `[]` when `n` has no
entry. -/
def gdeps (g : List (String × List String)) (n : String) : List String :=
  ((g.find? (fun p => p.1 = n)).map Prod.snd).getD []

/-! ## Backup metadata (src/db/backup.js, dbBkpGenerateMetaInfo) -/

/-- One value of the table list as it stands right after
`dbBkpPopulateTableDetails`: name, DDL, index DDL list, column list,
plus the two graph-construction keys.  An `Option` field is `some`
exactly when the corresponding key is present on the JS object, so that
`delete table.dependencies` is `dependencies := none` (the references
stored under `dependencies` are modelled by the names of their targets). -/
structure BackupTable where
  name : String
  sql : String
  indexes : List String
  columns : List String
  constraints : Option (List ForeignKey)
  dependencies : Option (List String)
deriving DecidableEq

/-- The per-table step of `dbBkpGenerateMetaInfo` (src/db/backup.js lines
334-349): after the load order is computed, the function runs
`Object.values(tables).forEach(table => delete table.dependencies)` and
returns `{ loadOrder, tables }`.  Only the `dependencies` key is deleted;
every other key of each table object is returned — and then persisted
verbatim by `reqCreateDump` via `r2StoreJson` (src/requests/backup/create.js
lines 38-41). -/
def dbBkpGenerateMetaInfoTables (tables : List (String × BackupTable)) :
    List (String × BackupTable) :=
  tables.map (fun p => (p.1, { p.2 with dependencies := none }))

/-! ## Restore orchestration (src/requests/backup/restore.js) -/

/-- A table entry of a decoded `metadata.json` document, as consumed by
`restoreTable` (src/requests/backup/restore.js lines 88-126): the DDL and
row handling are opaque I/O here; material for the orchestration claims
is the `name` field, which names the table the DDL creates. -/
structure TableSpec where
  name : String
  sql : String
  indexes : List String
  columns : List String
deriving DecidableEq

/-- A decoded `metadata.json` document: the load order and the
name-keyed table map (`metadata.tables`), as an association list in key
order. -/
structure Metadata where
  loadOrder : List String
  tables : List (String × TableSpec)
deriving DecidableEq

/-- JS property access `metadata.tables[name]` (keys unique). -/
def lookupTable (tables : List (String × TableSpec)) (n : String) : Option TableSpec :=
  (tables.find? (fun p => p.1 = n)).map Prod.snd

/-- `verifyDbTables` (src/requests/backup/restore.js lines 62-69): given
the destination database's current table names and the metadata, return
the table names that exist in the database and are also named by
`metadata.tables`. -/
def verifyDbTables (destTables : List String) (md : Metadata) : List String :=
  destTables.filter (fun e => (lookupTable md.tables e).isSome)

/-- The terminal failures of the two restore orchestrations, each
carrying what the corresponding `fail(...)` call reports. -/
inductive RestoreError where
  /-- `metadata file ... not found` -/
  | metadataMissing : RestoreError
  /-- `cannot restore; tables to be restored already exist`, with the
  conflicting names (the payload passed to `fail`). -/
  | tableConflict (existing : List String) : RestoreError
  /-- `cannot restore; table data file '{base}/{table}.json' missing` -/
  | missingTableData (table : String) : RestoreError
  /-- `unexpected file '{found}' in '{key}'; expected '{expected}'`
  (`none` models the JS `undefined` shown when the expected list is
  already exhausted). -/
  | unexpectedMember (found : String) (expected : Option String) : RestoreError
  /-- `cannot restore; tarball contains entry for table {t} but the
  metadata.json does not mention it` -/
  | unknownTableMember (table : String) : RestoreError
  /-- an uncaught TypeError: `metadata.tables[name]` was `undefined` and
  `restoreTable` dereferenced it. -/
  | scriptError : RestoreError
deriving DecidableEq

/-- The observable outcome of a restore run: the failure (if any), the
table names materialized (the `result.tables` entries pushed, in order),
and the destination database's table list afterwards (materializing a
table executes its `CREATE TABLE` DDL, adding its name; nothing ever
drops or removes a table). -/
structure RestoreOutcome where
  error : Option RestoreError
  tables : List String
  destTables : List String
deriving DecidableEq

/-- The per-table loop of `performBareFileRestore`
(src/requests/backup/restore.js lines 186-198): walk `loadOrder` in
order; for each name fetch `{base}/{name}.json` (presence given by
`blob`), fail naming the table when the object is absent, otherwise run
`restoreTable` for the descriptor `metadata.tables[name]` (a missing
descriptor would make `restoreTable` throw).  On any failure the run
stops; tables already materialized stay as they are. -/
def bareLoop (blob : String → Bool) (md : Metadata) :
    List String → List String → List String → RestoreOutcome
  | [], dest, acc => ⟨none, acc, dest⟩
  | n :: rest, dest, acc =>
    if blob n = false then ⟨some (.missingTableData n), acc, dest⟩
    else
      match lookupTable md.tables n with
      | none => ⟨some .scriptError, acc, dest⟩
      | some spec => bareLoop blob md rest (dest ++ [spec.name]) (acc ++ [spec.name])

/-- `performBareFileRestore` (src/requests/backup/restore.js lines
151-202): fetch the metadata object (`none` when the key is absent), run
`verifyDbTables` and refuse with the conflicting names when the result is
non-empty, then materialize tables in load order via the loop.
`destTables` is the destination's current table list; `md?` the decoded
metadata object or `none`; `blob n` whether the data object
`{base}/{n}.json` exists. -/
def performBareFileRestore (destTables : List String) (md? : Option Metadata)
    (blob : String → Bool) : RestoreOutcome :=
  match md? with
  | none => ⟨some .metadataMissing, [], destTables⟩
  | some md =>
    if verifyDbTables destTables md = [] then bareLoop blob md md.loadOrder destTables []
    else ⟨some (.tableConflict (verifyDbTables destTables md)), [], destTables⟩

/-- One member of the tar archive stream: its header name, whether its
header type is `TAR_OBJECT_TYPE_FILE`, and the metadata value its bytes
decode to when the member is read as `metadata.json` (JSON decoding is
opaque I/O; for data members the field is never consulted). -/
structure TarMember where
  name : String
  isFile : Bool
  meta : Metadata
deriving DecidableEq

/-- The JS `member.header.name.split('.')[0]`
(src/requests/backup/restore.js line 295): the prefix of the string up to
the first `'.'` (the whole string when it has none). -/
def firstSegment (s : String) : String :=
  ⟨s.data.takeWhile (fun c => decide (c ≠ '.'))⟩

/-- The member loop of `performTarRestore`
(src/requests/backup/restore.js lines 262-306).  `fileList` is the list
of member names still expected, `md?` the metadata once decoded, `dest`
the destination table list, `acc` the tables materialized so far.  Each
member must be a regular file named by the head of `fileList` (failing
with found/expected otherwise); the first member is decoded as metadata,
`fileList` is replaced by `{table}.json` per load-order entry, and the
conflict check runs; every later member has its table name derived via
`firstSegment` and is materialized, failing when `metadata.tables` lacks
that name.  Exhausting the archive returns success. -/
def tarLoop : List TarMember → List String → Option Metadata →
    List String → List String → RestoreOutcome
  | [], _, _, dest, acc => ⟨none, acc, dest⟩
  | m :: rest, fileList, md?, dest, acc =>
    match fileList with
    | [] => ⟨some (.unexpectedMember m.name none), acc, dest⟩
    | e :: fl =>
      if m.isFile = false ∨ m.name ≠ e then
        ⟨some (.unexpectedMember m.name (some e)), acc, dest⟩
      else
        match md? with
        | none =>
          if verifyDbTables dest m.meta = [] then
            tarLoop rest (m.meta.loadOrder.map (fun t => t ++ ".json")) (some m.meta) dest acc
          else ⟨some (.tableConflict (verifyDbTables dest m.meta)), acc, dest⟩
        | some md =>
          match lookupTable md.tables (firstSegment m.name) with
          | none => ⟨some (.unknownTableMember (firstSegment m.name)), acc, dest⟩
          | some spec => tarLoop rest fl (some md) (dest ++ [spec.name]) (acc ++ [spec.name])

/-- `performTarRestore` (src/requests/backup/restore.js lines 231-309)
from the point the tar stream is open: the expected file list starts as
`['metadata.json']` with no metadata decoded yet and nothing
materialized. -/
def performTarRestore (destTables : List String) (members : List TarMember) :
    RestoreOutcome :=
  tarLoop members ["metadata.json"] none destTables []

/-! ## Backup tracking records (src/db/backup.js, dbBkpInsert) -/

/-- One row of the `BackupList` tracking table. -/
structure BackupRecord where
  id : Nat
  dbName : String
  backupName : String
deriving DecidableEq

/-- The rows of `rows` matching the `(dbName, backupName)` pair — the
`SELECT ... WHERE dbName = ?1 AND backupName = ?2` of `dbBkpInsert`. -/
def matchingRecords (rows : List BackupRecord) (fromDatabase name : String) :
    List BackupRecord :=
  rows.filter (fun r => r.dbName == fromDatabase && r.backupName == name)

/-- `dbBkpInsert` (src/db/backup.js lines 385-418): query for an existing
record for `(fromDatabase, name)`; when one exists return it and leave
the table alone; otherwise insert a new row (whose id the engine assigns
— `nextId` stands for `meta.last_row_id`) and return it.  The result is
the returned record together with the table rows afterwards. -/
def dbBkpInsert (rows : List BackupRecord) (nextId : Nat) (fromDatabase name : String) :
    BackupRecord × List BackupRecord :=
  match matchingRecords rows fromDatabase name with
  | [] => (⟨nextId, fromDatabase, name⟩, rows ++ [⟨nextId, fromDatabase, name⟩])
  | e :: _ => (e, rows)

/-- Metadata document used as concrete witness input: the spec's example
scenario, tables `Customers` and `Orders` with `Orders` depending on
`Customers`. -/
def mdW : Metadata :=
  { loadOrder := ["Customers", "Orders"]
  , tables := [("Customers", ⟨"Customers", "CREATE TABLE Customers (id)", [], ["id"]⟩),
               ("Orders", ⟨"Orders", "CREATE TABLE Orders (id, customerId)", [],
                 ["id", "customerId"]⟩)] }

/-- Metadata whose load order contains a table name with a `'.'` in it,
alongside a table whose name coincides with the first dot-segment. -/
def mdDot : Metadata :=
  { loadOrder := ["a.b", "a"]
  , tables := [("a.b", ⟨"a.b", "CREATE TABLE [a.b] (id)", [], ["id"]⟩),
               ("a", ⟨"a", "CREATE TABLE a (id)", [], ["id"]⟩)] }

/-- Metadata with a single dotted table name whose first dot-segment
names no table. -/
def mdXY : Metadata :=
  { loadOrder := ["x.y"]
  , tables := [("x.y", ⟨"x.y", "CREATE TABLE [x.y] (id)", [], ["id"]⟩)] }

/-- Descriptor store used as concrete witness input: the spec's example
scenario, `Orders` holding a foreign key into `Customers`. -/
def stW : List TableDesc :=
  [⟨"Customers", [], false⟩, ⟨"Orders", ["Customers"], false⟩]

/-- A rank function witnessing that `stW`'s constraint graph is acyclic:
every constraint edge strictly decreases it. -/
def rankW : String → Nat := fun n => if n = "Orders" then 1 else 0

/-! ## Theorems -/

/-- On the two-table constraint cycle `A → B → A` the traversal of
`getTableLoadOrder` never returns, whatever recursion depth is available:
the recursive call into `table.dependencies` is made before any visited
check, so every level demands one more. -/
lemma visitM_cycleAB_none :
    ∀ fuel : Nat,
      (∀ rest o, visitM fuel ("A" :: rest)
        [⟨"A", ["B"], false⟩, ⟨"B", ["A"], false⟩] o = none) ∧
      (∀ rest o, visitM fuel ("B" :: rest)
        [⟨"A", ["B"], false⟩, ⟨"B", ["A"], false⟩] o = none) := by
  intro fuel
  induction fuel with
  | zero => exact ⟨fun rest o => rfl, fun rest o => rfl⟩
  | succ f ih =>
    constructor
    · intro rest o
      show visitStep (visitM f) ("A" :: rest)
        [⟨"A", ["B"], false⟩, ⟨"B", ["A"], false⟩] o = none
      simp only [visitStep]
      rw [show depsOf [⟨"A", ["B"], false⟩, ⟨"B", ["A"], false⟩] "A" = ["B"] from rfl,
        ih.2 [] o]
    · intro rest o
      show visitStep (visitM f) ("B" :: rest)
        [⟨"A", ["B"], false⟩, ⟨"B", ["A"], false⟩] o = none
      simp only [visitStep]
      rw [show depsOf [⟨"A", ["B"], false⟩, ⟨"B", ["A"], false⟩] "B" = ["A"] from rfl,
        ih.1 [] o]

/-- C2: the spec requires the dependency resolver to terminate on a
cyclic constraint graph and fail with a `CyclicDependency` error.  The
source does neither: on the two-table cycle `A → B` / `B → A` the
recursion into `table.dependencies` is unconditional, so
`getTableLoadOrder` never returns at any recursion depth (the model is
`none` for every fuel), and no cycle error exists anywhere in the code. -/
theorem getTableLoadOrder_cycle_diverges :
    ∀ fuel : Nat,
      getTableLoadOrderM [⟨"A", ["B"], false⟩, ⟨"B", ["A"], false⟩] fuel = none := by
  intro fuel
  have h := (visitM_cycleAB_none fuel).1 ["B"] []
  simp only [getTableLoadOrderM, List.map]
  rw [h]
  rfl

/-- On a self-referencing table the traversal likewise never returns:
processing `A` first recurses into its dependencies, which contain `A`
itself, before any visited check could cut the recursion off. -/
lemma visitM_self_none :
    ∀ fuel : Nat, ∀ rest o,
      visitM fuel ("A" :: rest) [⟨"A", ["A"], false⟩] o = none := by
  intro fuel
  induction fuel with
  | zero => exact fun rest o => rfl
  | succ f ih =>
    intro rest o
    show visitStep (visitM f) ("A" :: rest) [⟨"A", ["A"], false⟩] o = none
    simp only [visitStep]
    rw [show depsOf [⟨"A", ["A"], false⟩] "A" = ["A"] from rfl, ih [] o]

/-- C3: the spec says a self-referencing table imposes no ordering
constraint and still appears in a valid load order.  The source violates
this: `dbBkpPopulateTableDetails` puts the table's own name into its
`dependencies` object (the constraint-to-dependencies fold does not
exclude self references, first conjunct), and `getTableLoadOrder` then
recurses into that self edge unconditionally, so the resolver never
returns for a lone self-referencing table `A` (second conjunct: the model
is `none` at every recursion depth, instead of an order containing `A`). -/
theorem getTableLoadOrder_self_reference_diverges :
    buildDependencies [⟨"A", "ownerId", "id"⟩] = ["A"]
    ∧ ∀ fuel : Nat, getTableLoadOrderM [⟨"A", ["A"], false⟩] fuel = none := by
  refine ⟨rfl, fun fuel => ?_⟩
  have h := visitM_self_none fuel [] []
  simp only [getTableLoadOrderM, List.map]
  rw [h]
  rfl

/-- Counterexample to C5: `dbBkpGenerateMetaInfo` deletes only the
`dependencies` key; the `constraints` key survives into the value that
`reqCreateDump` persists as `metadata.json`.  On a concrete table with a
constraint edge, the persisted table object still carries that edge. -/
theorem dbBkpGenerateMetaInfo_keeps_constraints_cex :
    (dbBkpGenerateMetaInfoTables
        [("A", ⟨"A", "CREATE TABLE A (id, owner)", [], ["id", "owner"],
          some [⟨"B", "owner", "id"⟩], some ["B"]⟩)]).map
        (fun p => p.2.constraints)
      = [some [⟨"B", "owner", "id"⟩]]
    ∧ (some [(⟨"B", "owner", "id"⟩ : ForeignKey)] ≠ (none : Option (List ForeignKey))) :=
  ⟨rfl, by decide⟩

/-- C5 as amended: the metadata value persisted by the backup path has,
for every table, no `dependencies` key (the graph references are stripped
before persisting), but the `constraints` key is retained unchanged. -/
theorem dbBkpGenerateMetaInfo_strips_only_dependencies
    (tables : List (String × BackupTable)) :
    (dbBkpGenerateMetaInfoTables tables).map (fun p => p.2.dependencies)
      = tables.map (fun _ => none)
    ∧ (dbBkpGenerateMetaInfoTables tables).map (fun p => (p.1, p.2.constraints))
      = tables.map (fun p => (p.1, p.2.constraints)) := by
  refine ⟨?_, by simp [dbBkpGenerateMetaInfoTables]⟩
  induction tables with
  | nil => rfl
  | cons p ps ih => simpa [dbBkpGenerateMetaInfoTables] using ih

/-- C8: inserting a backup record twice for the same
`(sourceDatabase, backupName)` pair leaves exactly one tracking record
for the pair, provided at most one existed before: the second invocation
returns the same record as the first and leaves the rows untouched. -/
theorem dbBkpInsert_idempotent_pair (rows : List BackupRecord) (id1 id2 : Nat)
    (dbn nm : String)
    (hinv : (matchingRecords rows dbn nm).length ≤ 1) :
    (dbBkpInsert (dbBkpInsert rows id1 dbn nm).2 id2 dbn nm).2
        = (dbBkpInsert rows id1 dbn nm).2
    ∧ (dbBkpInsert (dbBkpInsert rows id1 dbn nm).2 id2 dbn nm).1
        = (dbBkpInsert rows id1 dbn nm).1
    ∧ (matchingRecords (dbBkpInsert (dbBkpInsert rows id1 dbn nm).2 id2 dbn nm).2
        dbn nm).length = 1 := by
  match h : matchingRecords rows dbn nm with
  | [] =>
    have hone : matchingRecords (rows ++ [⟨id1, dbn, nm⟩]) dbn nm = [⟨id1, dbn, nm⟩] := by
      unfold matchingRecords at h ⊢
      rw [List.filter_append, h]
      simp
    simp [dbBkpInsert, h, hone]
  | e :: rest =>
    have hrest : rest = [] := by
      rw [h] at hinv
      simpa using hinv
    subst hrest
    simp [dbBkpInsert, h]

/-- Witness for C8 at a concrete input: starting from an empty tracking
table, two inserts for the same pair leave exactly one record. -/
theorem dbBkpInsert_idempotent_pair_witness :
    (matchingRecords [] "game" "daily").length ≤ 1
    ∧ ((dbBkpInsert (dbBkpInsert [] 1 "game" "daily").2 2 "game" "daily").2
        = (dbBkpInsert [] 1 "game" "daily").2
      ∧ (dbBkpInsert (dbBkpInsert [] 1 "game" "daily").2 2 "game" "daily").1
        = (dbBkpInsert [] 1 "game" "daily").1
      ∧ (matchingRecords
          (dbBkpInsert (dbBkpInsert [] 1 "game" "daily").2 2 "game" "daily").2
          "game" "daily").length = 1) :=
  ⟨by decide, dbBkpInsert_idempotent_pair [] 1 2 "game" "daily" (by decide)⟩

/-- `metadata.tables[n]` is defined exactly when `n` is among the keys of
the table map. -/
lemma lookupTable_isSome (tables : List (String × TableSpec)) (n : String) :
    (lookupTable tables n).isSome = true ↔ n ∈ tables.map Prod.fst := by
  induction tables with
  | nil => simp [lookupTable]
  | cons q ps ih =>
    by_cases h : q.1 = n
    · rw [lookupTable, List.find?_cons_of_pos _ (by simpa using h)]
      simp [h]
    · rw [lookupTable, List.find?_cons_of_neg _ (by simpa using h)]
      rw [show ((ps.find? (fun p => p.1 = n)).map Prod.snd) = lookupTable ps n from rfl]
      simp [ih, h, Ne.symm h]

/-- C4: `verifyDbTables` returns exactly the table names present both in
the destination database and among the tables named by the metadata; and
whenever that set is non-empty, both restore variants fail carrying those
names, having materialized nothing and left the destination's tables
untouched (no DDL, no insert). -/
theorem restore_conflict_refusal :
    (∀ destTables md x, x ∈ verifyDbTables destTables md ↔
        (x ∈ destTables ∧ x ∈ md.tables.map Prod.fst))
    ∧ (∀ destTables md blob, verifyDbTables destTables md ≠ [] →
        performBareFileRestore destTables (some md) blob
          = ⟨some (.tableConflict (verifyDbTables destTables md)), [], destTables⟩)
    ∧ (∀ destTables (m : TarMember) rest, m.isFile = true → m.name = "metadata.json" →
        verifyDbTables destTables m.meta ≠ [] →
        performTarRestore destTables (m :: rest)
          = ⟨some (.tableConflict (verifyDbTables destTables m.meta)), [], destTables⟩) := by
  refine ⟨fun destTables md x => ?_, fun destTables md blob h => ?_, ?_⟩
  · rw [verifyDbTables, List.mem_filter, lookupTable_isSome]
  · simp only [performBareFileRestore]
    rw [if_neg h]
  · intro destTables m rest h1 h2 h3
    simp [performTarRestore, tarLoop, h1, h2, h3]

/-- Witness for C4 at the spec's example scenario: the destination
already holds `Orders`, so both variants refuse with `["Orders"]`. -/
theorem restore_conflict_refusal_witness :
    ("Orders" ∈ verifyDbTables ["Orders"] mdW ↔
      ("Orders" ∈ ["Orders"] ∧ "Orders" ∈ mdW.tables.map Prod.fst))
    ∧ performBareFileRestore ["Orders"] (some mdW) (fun _ => true)
        = ⟨some (.tableConflict (verifyDbTables ["Orders"] mdW)), [], ["Orders"]⟩
    ∧ performTarRestore ["Orders"] [⟨"metadata.json", true, mdW⟩]
        = ⟨some (.tableConflict (verifyDbTables ["Orders"] mdW)), [], ["Orders"]⟩ :=
  ⟨restore_conflict_refusal.1 ["Orders"] mdW "Orders",
   restore_conflict_refusal.2.1 ["Orders"] mdW (fun _ => true) (by decide),
   restore_conflict_refusal.2.2 ["Orders"] ⟨"metadata.json", true, mdW⟩ [] rfl rfl
     (by decide)⟩

/-- Running the bare-file loop over a block of tables whose data objects
are all present (and whose descriptors exist under their own names)
materializes exactly those tables, in order, and then continues with the
remainder. -/
lemma bareLoop_run_front (blob : String → Bool) (md : Metadata) :
    ∀ (pre rest dest acc : List String),
      (∀ t ∈ pre, blob t = true
        ∧ ∃ spec, lookupTable md.tables t = some spec ∧ spec.name = t) →
      bareLoop blob md (pre ++ rest) dest acc
        = bareLoop blob md rest (dest ++ pre) (acc ++ pre) := by
  intro pre
  induction pre with
  | nil => intro rest dest acc _; simp
  | cons n pre' ih =>
    intro rest dest acc h
    obtain ⟨hb, spec, hl, hn⟩ := h n (by simp)
    simp only [List.cons_append, bareLoop, hb, Bool.true_eq_false, if_false, hl]
    rw [hn]
    simp only [List.append_eq]
    rw [ih rest (dest ++ [n]) (acc ++ [n]) (fun t ht => h t (by simp [ht]))]
    simp

/-- C7: when a per-table data object is absent, the random-access restore
materializes the tables of `loadOrder` strictly in order up to the first
absent one, then fails naming that table; nothing after it is
materialized, and the destination keeps everything created so far —
no drop or other compensating action is taken (its table list is exactly
the original list plus the materialized prefix). -/
theorem bare_restore_stops_at_first_missing (dest : List String) (md : Metadata)
    (blob : String → Bool) (pre post : List String) (missing : String)
    (horder : md.loadOrder = pre ++ missing :: post)
    (hpre : ∀ t ∈ pre, blob t = true
      ∧ ∃ spec, lookupTable md.tables t = some spec ∧ spec.name = t)
    (hmiss : blob missing = false)
    (hconf : verifyDbTables dest md = []) :
    performBareFileRestore dest (some md) blob
      = ⟨some (.missingTableData missing), pre, dest ++ pre⟩ := by
  simp only [performBareFileRestore]
  rw [hconf, if_pos rfl, horder,
    bareLoop_run_front blob md pre (missing :: post) dest [] hpre]
  simp [bareLoop, hmiss]

/-- Witness for C7: load order `[Customers, Orders]` with the `Orders`
object absent — `Customers` alone is materialized, the failure names
`Orders`, and the destination holds exactly `Customers`. -/
theorem bare_restore_stops_at_first_missing_witness :
    performBareFileRestore [] (some mdW) (fun k => k = "Customers")
      = ⟨some (.missingTableData "Orders"), ["Customers"], ["Customers"]⟩ := by
  have h := bare_restore_stops_at_first_missing [] mdW (fun k => k = "Customers")
    ["Customers"] [] "Orders" rfl
    (by
      intro t ht
      refine ⟨?_, ⟨"Customers", "CREATE TABLE Customers (id)", [], ["id"]⟩, ?_, ?_⟩ <;>
        simp_all [mdW, lookupTable, List.find?])
    (by decide) (by decide)
  simpa using h

/-- A dot-free table name survives the member-name round trip: the JS
`'{t}.json'.split('.')[0]` on the member named `{t}.json` gives `t`
back. -/
lemma firstSegment_json (t : String) (h : ('.' : Char) ∉ t.data) :
    firstSegment (t ++ ".json") = t := by
  have hdata : (t ++ ".json").data = t.data ++ ('.' :: "json".data) := by
    cases t
    rfl
  have htake : ∀ l : List Char, ('.' : Char) ∉ l →
      (l ++ '.' :: "json".data).takeWhile (fun c => decide (c ≠ '.')) = l := by
    intro l hl
    induction l with
    | nil => rfl
    | cons c cs ih =>
      have hc : c ≠ '.' := fun e => hl (by simp [e])
      rw [List.cons_append,
        List.takeWhile_cons_of_pos (p := fun c => decide (c ≠ '.')) (decide_eq_true hc),
        ih (fun hm => hl (List.mem_cons_of_mem _ hm))]
  simp only [firstSegment, hdata, htake t.data h]

/-- The derived table name `split('.')[0]` never contains a dot. -/
lemma firstSegment_no_dot (s : String) : ('.' : Char) ∉ (firstSegment s).data := by
  intro hm
  have h := List.mem_takeWhile_imp (p := fun c => decide (c ≠ '.')) hm
  simp at h

/-- Processing a block of archive members that each match the head of
the expected member list (regular files named `{t}.json` for a dot-free
table `t` described under its own name in `metadata.tables`)
materializes exactly those tables, in order, and continues with the rest
of the archive. -/
lemma tarLoop_run_data (md : Metadata) :
    ∀ (ts : List String) (good restM : List TarMember) (restE dest acc : List String),
      List.Forall₂ (fun (mm : TarMember) (t : String) =>
        mm.isFile = true ∧ mm.name = t ++ ".json") good ts →
      (∀ t ∈ ts, ('.' : Char) ∉ t.data
        ∧ ∃ spec, lookupTable md.tables t = some spec ∧ spec.name = t) →
      tarLoop (good ++ restM) (ts.map (fun t => t ++ ".json") ++ restE)
          (some md) dest acc
        = tarLoop restM restE (some md) (dest ++ ts) (acc ++ ts) := by
  intro ts
  induction ts with
  | nil =>
    intro good restM restE dest acc hf _
    cases hf
    simp
  | cons t ts' ih =>
    intro good restM restE dest acc hf h
    cases hf with
    | cons hht hft =>
      rename_i mm good'
      obtain ⟨hfile, hname⟩ := hht
      obtain ⟨hdot, spec, hl, hn⟩ := h t (by simp)
      simp only [List.cons_append, List.map_cons, tarLoop]
      rw [if_neg (by simp [hfile, hname])]
      rw [hname, firstSegment_json t hdot, hl]
      simp only [hn, List.append_eq]
      rw [ih good' restM restE (dest ++ [t]) (acc ++ [t]) hft
        (fun x hx => h x (by simp [hx]))]
      simp

/-- C6: the sequential restore requires the first archive member to be a
regular file named `metadata.json` (first conjunct), and every later
member to be a regular file named by the head of the expected sequence
`{table}.json` derived from `loadOrder`; the first offending member
aborts the run with an error naming both the member found and the member
expected, before that member is materialized — only the matching block
before it has been (second conjunct). -/
theorem tar_restore_member_order :
    (∀ dest (m : TarMember) rest, ¬(m.isFile = true ∧ m.name = "metadata.json") →
      performTarRestore dest (m :: rest)
        = ⟨some (.unexpectedMember m.name (some "metadata.json")), [], dest⟩)
    ∧ (∀ dest (m0 : TarMember) (good : List TarMember) (bad : TarMember)
        (rest : List TarMember) (k : Nat) (tk : String),
        m0.isFile = true → m0.name = "metadata.json" →
        verifyDbTables dest m0.meta = [] →
        List.Forall₂ (fun (mm : TarMember) (t : String) =>
          mm.isFile = true ∧ mm.name = t ++ ".json") good (m0.meta.loadOrder.take k) →
        (∀ t ∈ m0.meta.loadOrder.take k, ('.' : Char) ∉ t.data
          ∧ ∃ spec, lookupTable m0.meta.tables t = some spec ∧ spec.name = t) →
        m0.meta.loadOrder[k]? = some tk →
        ¬(bad.isFile = true ∧ bad.name = tk ++ ".json") →
        performTarRestore dest (m0 :: (good ++ bad :: rest))
          = ⟨some (.unexpectedMember bad.name (some (tk ++ ".json"))),
             m0.meta.loadOrder.take k, dest ++ m0.meta.loadOrder.take k⟩) := by
  constructor
  · intro dest m rest hm
    simp only [performTarRestore, tarLoop]
    rw [if_pos]
    rcases not_and_or.mp hm with h | h
    · left; simpa using h
    · right; exact h
  · intro dest m0 good bad rest k tk hfile0 hname0 hconf hgood hpre hk hbad
    have hklt : k < m0.meta.loadOrder.length := by
      by_contra hge
      rw [List.getElem?_eq_none (Nat.le_of_not_lt hge)] at hk
      exact Option.noConfusion hk
    have hdrop : m0.meta.loadOrder.drop k = tk :: m0.meta.loadOrder.drop (k + 1) := by
      rw [List.drop_eq_getElem_cons hklt]
      obtain ⟨h1, h2⟩ := List.getElem?_eq_some.mp hk
      simp [h2]
    have hsplit : m0.meta.loadOrder.map (fun t => t ++ ".json")
        = (m0.meta.loadOrder.take k).map (fun t => t ++ ".json")
          ++ ((tk ++ ".json")
              :: (m0.meta.loadOrder.drop (k + 1)).map (fun t => t ++ ".json")) := by
      conv_lhs => rw [← List.take_append_drop k m0.meta.loadOrder]
      rw [List.map_append, hdrop]
      rfl
    simp only [performTarRestore, tarLoop]
    rw [if_neg (by simp [hfile0, hname0]), if_pos hconf, hsplit,
      tarLoop_run_data m0.meta (m0.meta.loadOrder.take k) good (bad :: rest)
        ((tk ++ ".json") :: (m0.meta.loadOrder.drop (k + 1)).map (fun t => t ++ ".json"))
        dest [] hgood hpre]
    simp only [tarLoop]
    rw [if_pos]
    · simp
    · rcases not_and_or.mp hbad with h | h
      · left; simpa using h
      · right; exact h

/-- Witness for C6: an archive whose first member is misnamed is
rejected naming `metadata.json`; an archive whose member after
`Customers.json` is `Orders.csv` instead of `Orders.json` is rejected
naming both, with only `Customers` materialized. -/
theorem tar_restore_member_order_witness :
    performTarRestore [] [⟨"Customers.json", true, mdW⟩]
      = ⟨some (.unexpectedMember "Customers.json" (some "metadata.json")), [], []⟩
    ∧ performTarRestore []
        [⟨"metadata.json", true, mdW⟩, ⟨"Customers.json", true, mdW⟩,
          ⟨"Orders.csv", true, mdW⟩]
      = ⟨some (.unexpectedMember "Orders.csv" (some ("Orders" ++ ".json"))),
         mdW.loadOrder.take 1, [] ++ mdW.loadOrder.take 1⟩ := by
  constructor
  · exact tar_restore_member_order.1 [] ⟨"Customers.json", true, mdW⟩ [] (by decide)
  · exact tar_restore_member_order.2 [] ⟨"metadata.json", true, mdW⟩
      [⟨"Customers.json", true, mdW⟩] ⟨"Orders.csv", true, mdW⟩ [] 1 "Orders"
      rfl rfl (by decide)
      (List.Forall₂.cons (by decide) List.Forall₂.nil)
      (by
        intro t ht
        have : t = "Customers" := by simpa [mdW] using ht
        subst this
        exact ⟨by decide, ⟨"Customers", "CREATE TABLE Customers (id)", [], ["id"]⟩,
          by decide, rfl⟩)
      (by decide) (by decide)

/-- Counterexample to C10: with `loadOrder = ["a.b", "a"]` the archive
member `a.b.json` — which exactly matches the expected entry for the
dotted table `a.b` — does **not** fail with the unknown-table error:
`split('.')[0]` derives `a`, which happens to name another table, so the
member is silently materialized under table `a`'s descriptor and the run
succeeds having created `a` (and never `a.b`). -/
theorem tar_restore_dotted_cex :
    (('.' : Char) ∈ "a.b".data)
    ∧ performTarRestore []
        [⟨"metadata.json", true, mdDot⟩, ⟨"a.b.json", true, mdDot⟩]
        = ⟨none, ["a"], ["a"]⟩ := by
  constructor
  · decide
  · rfl

/-- C10 as amended: when a sequential restore reaches the member for a
dotted table name `t` in `loadOrder`, the table name is derived as the
substring before the first `'.'`, which always differs from `t`; the
member fails with the unknown-table error exactly when that truncated
name does not itself name a table in the metadata (otherwise the wrong
table's descriptor is used instead). -/
theorem tar_restore_dotted_unknown (dest : List String) (m0 : TarMember)
    (good : List TarMember) (m : TarMember) (rest : List TarMember) (k : Nat)
    (t : String)
    (hfile0 : m0.isFile = true) (hname0 : m0.name = "metadata.json")
    (hconf : verifyDbTables dest m0.meta = [])
    (hgood : List.Forall₂ (fun (mm : TarMember) (x : String) =>
      mm.isFile = true ∧ mm.name = x ++ ".json") good (m0.meta.loadOrder.take k))
    (hpre : ∀ x ∈ m0.meta.loadOrder.take k, ('.' : Char) ∉ x.data
      ∧ ∃ spec, lookupTable m0.meta.tables x = some spec ∧ spec.name = x)
    (hk : m0.meta.loadOrder[k]? = some t)
    (hdot : ('.' : Char) ∈ t.data)
    (hfile : m.isFile = true) (hname : m.name = t ++ ".json")
    (hlook : lookupTable m0.meta.tables (firstSegment (t ++ ".json")) = none) :
    performTarRestore dest (m0 :: (good ++ m :: rest))
      = ⟨some (.unknownTableMember (firstSegment (t ++ ".json"))),
         m0.meta.loadOrder.take k, dest ++ m0.meta.loadOrder.take k⟩
    ∧ firstSegment (t ++ ".json") ≠ t := by
  constructor
  · have hklt : k < m0.meta.loadOrder.length := by
      by_contra hge
      rw [List.getElem?_eq_none (Nat.le_of_not_lt hge)] at hk
      exact Option.noConfusion hk
    have hdrop : m0.meta.loadOrder.drop k = t :: m0.meta.loadOrder.drop (k + 1) := by
      rw [List.drop_eq_getElem_cons hklt]
      obtain ⟨h1, h2⟩ := List.getElem?_eq_some.mp hk
      simp [h2]
    have hsplit : m0.meta.loadOrder.map (fun x => x ++ ".json")
        = (m0.meta.loadOrder.take k).map (fun x => x ++ ".json")
          ++ ((t ++ ".json")
              :: (m0.meta.loadOrder.drop (k + 1)).map (fun x => x ++ ".json")) := by
      conv_lhs => rw [← List.take_append_drop k m0.meta.loadOrder]
      rw [List.map_append, hdrop]
      rfl
    simp only [performTarRestore, tarLoop]
    rw [if_neg (by simp [hfile0, hname0]), if_pos hconf, hsplit,
      tarLoop_run_data m0.meta (m0.meta.loadOrder.take k) good (m :: rest)
        ((t ++ ".json") :: (m0.meta.loadOrder.drop (k + 1)).map (fun x => x ++ ".json"))
        dest [] hgood hpre]
    simp only [tarLoop]
    rw [if_neg (by simp [hfile, hname]), hname, hlook]
    simp
  · intro e
    exact absurd (e ▸ firstSegment_no_dot (t ++ ".json")) (fun h2 => h2 hdot)

/-- Witness for the amended C10: table `x.y` is the only table; the
member `x.y.json` is truncated to `x`, which the metadata does not name,
so the restore fails with the unknown-table error for `x` even though
the member name matched the expected entry exactly. -/
theorem tar_restore_dotted_unknown_witness :
    (performTarRestore []
        [⟨"metadata.json", true, mdXY⟩, ⟨"x.y.json", true, mdXY⟩]
      = ⟨some (.unknownTableMember (firstSegment ("x.y" ++ ".json"))),
         mdXY.loadOrder.take 0, [] ++ mdXY.loadOrder.take 0⟩)
    ∧ firstSegment ("x.y" ++ ".json") ≠ "x.y" := by
  have h := tar_restore_dotted_unknown [] ⟨"metadata.json", true, mdXY⟩ []
    ⟨"x.y.json", true, mdXY⟩ [] 0 "x.y" rfl rfl (by decide)
    List.Forall₂.nil (by simp [mdXY]) (by decide) (by decide) rfl rfl (by decide)
  simpa using h

/-- The keys of the shape are the descriptor names. -/
lemma tdNames_eq_shape_keys (st : List TableDesc) :
    (tdShape st).map Prod.fst = tdNames st := by
  simp [tdShape, tdNames]

/-- Dependency lookup only reads the shape of the store. -/
lemma depsOf_eq_gdeps : ∀ (st : List TableDesc) (n : String),
    depsOf st n = gdeps (tdShape st) n := by
  intro st n
  induction st with
  | nil => rfl
  | cons t ts ih =>
    by_cases h : t.name = n
    · rw [depsOf, findTable, List.find?_cons_of_pos _ (by simpa using h)]
      rw [gdeps, tdShape, List.map_cons, List.find?_cons_of_pos _ (by simpa using h)]
      rfl
    · rw [depsOf, findTable, List.find?_cons_of_neg _ (by simpa using h)]
      rw [gdeps, tdShape, List.map_cons, List.find?_cons_of_neg _ (by simpa using h)]
      exact ih

/-- A set flag belongs to a descriptor that exists. -/
lemma flagOf_mem_names {st : List TableDesc} {n : String} (h : flagOf st n = true) :
    n ∈ tdNames st := by
  rcases hf : findTable st n with _ | t
  · rw [flagOf, hf] at h
    cases h
  · have hmem := List.mem_of_find?_eq_some hf
    have hname : t.name = n := by simpa using List.find?_some hf
    exact hname ▸ List.mem_map_of_mem TableDesc.name hmem

/-- In a store whose descriptors all carry `visited = false`, no flag
reads as set. -/
lemma flagOf_false_of_unflagged {st : List TableDesc}
    (h : ∀ t ∈ st, t.visited = false) (n : String) : flagOf st n = false := by
  rcases hf : findTable st n with _ | t
  · rw [flagOf, hf]
    rfl
  · rw [flagOf, hf]
    exact h t (List.mem_of_find?_eq_some hf)

/-- Setting a visited flag does not change the shape of the store. -/
lemma tdShape_setFlag (st : List TableDesc) (n : String) :
    tdShape (setFlag st n) = tdShape st := by
  induction st with
  | nil => rfl
  | cons t ts ih =>
    by_cases h : t.name = n <;>
      simp_all [tdShape, setFlag]

/-- Setting the flag of an existing descriptor makes it read as set. -/
lemma flagOf_setFlag_self {st : List TableDesc} {n : String}
    (hmem : n ∈ tdNames st) : flagOf (setFlag st n) n = true := by
  induction st with
  | nil => cases hmem
  | cons t ts ih =>
    by_cases h : t.name = n
    · rw [setFlag, List.map_cons, if_pos h, flagOf, findTable,
        List.find?_cons_of_pos _ (by simpa using h)]
      rfl
    · rw [setFlag, List.map_cons, if_neg h, flagOf, findTable,
        List.find?_cons_of_neg _ (by simpa using h)]
      have hmem' : n ∈ tdNames ts := by
        rcases List.mem_cons.mp (show n ∈ t.name :: tdNames ts from hmem) with h' | h'
        · exact absurd h'.symm h
        · exact h'
      exact ih hmem'

/-- Setting one descriptor's flag leaves every other name's flag
reading as before. -/
lemma flagOf_setFlag_other {st : List TableDesc} {n x : String} (hx : x ≠ n) :
    flagOf (setFlag st x) n = flagOf st n := by
  induction st with
  | nil => rfl
  | cons t ts ih =>
    by_cases h : t.name = n
    · have hnx : ¬(t.name = x) := by rw [h]; exact fun e => hx e.symm
      rw [setFlag, List.map_cons, if_neg hnx, flagOf, findTable,
        List.find?_cons_of_pos _ (by simpa using h), flagOf, findTable,
        List.find?_cons_of_pos _ (by simpa using h)]
    · by_cases h2 : t.name = x
      · rw [setFlag, List.map_cons, if_pos h2, flagOf, findTable,
          List.find?_cons_of_neg _ (by simpa using h), flagOf, findTable,
          List.find?_cons_of_neg _ (by simpa using h)]
        exact ih
      · rw [setFlag, List.map_cons, if_neg h2, flagOf, findTable,
          List.find?_cons_of_neg _ (by simpa using h), flagOf, findTable,
          List.find?_cons_of_neg _ (by simpa using h)]
        exact ih

/-- A key of the shape has its own entry: `(n, gdeps g n)` is a member. -/
lemma gdeps_entry_mem {g : List (String × List String)} {n : String}
    (h : n ∈ g.map Prod.fst) : (n, gdeps g n) ∈ g := by
  induction g with
  | nil => cases h
  | cons p ps ih =>
    by_cases hp : p.1 = n
    · rw [gdeps, List.find?_cons_of_pos _ (by simpa using hp)]
      simp only [Option.map_some', Option.getD_some]
      rw [← hp]
      exact List.mem_cons_self _ _
    · rw [gdeps, List.find?_cons_of_neg _ (by simpa using hp)]
      have h' : n ∈ ps.map Prod.fst := by
        rcases List.mem_cons.mp (show n ∈ p.1 :: ps.map Prod.fst from h) with h' | h'
        · exact absurd h'.symm hp
        · exact h'
      exact List.mem_cons_of_mem _ (ih h')

/-- With unique descriptor names, each descriptor's dependency list is
what the shape records for its name. -/
lemma gdeps_of_nodup : ∀ (st : List TableDesc), (tdNames st).Nodup →
    ∀ t ∈ st, gdeps (tdShape st) t.name = t.deps := by
  intro st
  induction st with
  | nil => intro _ t ht; cases ht
  | cons x ts ih =>
    intro hnd t ht
    have hnd' : (tdNames ts).Nodup := (List.nodup_cons.mp hnd).2
    rcases List.mem_cons.mp ht with h | h
    · subst h
      rw [tdShape, List.map_cons, gdeps, List.find?_cons_of_pos _ (by simp)]
      rfl
    · have hxn : x.name ≠ t.name := by
        intro e
        exact (List.nodup_cons.mp hnd).1 (e ▸ List.mem_map_of_mem TableDesc.name h)
      rw [tdShape, List.map_cons, gdeps, List.find?_cons_of_neg _ (by simpa using hxn)]
      exact ih hnd' t h

/-- A two-element sublist yields ordered positions: `a` occurs at a
strictly earlier index than `b`. -/
lemma sublist_pair_index {a b : String} : ∀ {l : List String},
    List.Sublist [a, b] l →
    ∃ i j : Nat, i < j ∧ l[i]? = some a ∧ l[j]? = some b := by
  intro l
  induction l with
  | nil => intro h; cases h
  | cons x l' ih =>
    intro h
    cases h with
    | cons _ h' =>
      obtain ⟨i, j, hij, ha, hb⟩ := ih h'
      exact ⟨i + 1, j + 1, by omega, by simpa using ha, by simpa using hb⟩
    | cons₂ _ h' =>
      obtain ⟨j, hj⟩ := List.mem_iff_getElem?.mp (List.singleton_sublist.mp h')
      exact ⟨0, j + 1, by omega, by simp, by simpa using hj⟩

/-- Soundness of the depth-first traversal on a ranked (hence acyclic)
constraint graph, by induction on the available recursion depth with an
inner induction on the node list.  The invariant carried through: the
store keeps the shape `g`; the set flags are exactly the emitted names;
the emitted order has no duplicates and every dependency of an emitted
table other than the table itself is emitted strictly earlier; the
traversal only appends to the order and only sets flags, and when it
returns every processed name is flagged. -/
lemma visitM_sound (g : List (String × List String)) (rank : String → Nat)
    (hclosed : ∀ p ∈ g, ∀ m ∈ p.2, m ∈ g.map Prod.fst)
    (hrank : ∀ p ∈ g, ∀ m ∈ p.2, rank m < rank p.1) :
    ∀ fuel : Nat, ∀ ns : List String, ∀ st : List TableDesc, ∀ o : List String,
      tdShape st = g →
      (∀ n ∈ ns, rank n < fuel) →
      (∀ n ∈ ns, n ∈ g.map Prod.fst) →
      (∀ x, flagOf st x = true ↔ x ∈ o) →
      o.Nodup →
      (∀ T ∈ o, ∀ R ∈ gdeps g T, R ≠ T → List.Sublist [R, T] o) →
      ∃ st' o', visitM fuel ns st o = some (st', o')
        ∧ tdShape st' = g
        ∧ (∀ x, flagOf st' x = true ↔ x ∈ o')
        ∧ o'.Nodup
        ∧ (∀ T ∈ o', ∀ R ∈ gdeps g T, R ≠ T → List.Sublist [R, T] o')
        ∧ (∃ tail, o' = o ++ tail)
        ∧ (∀ n ∈ ns, flagOf st' n = true)
        ∧ (∀ x, flagOf st x = true → flagOf st' x = true) := by
  intro fuel
  induction fuel with
  | zero =>
    intro ns st o hg hfuel hns hio hnd hord
    cases ns with
    | nil =>
      exact ⟨st, o, rfl, hg, hio, hnd, hord, ⟨[], by simp⟩,
        fun n hn => absurd hn (List.not_mem_nil n), fun x hx => hx⟩
    | cons n rest => exact absurd (hfuel n (List.mem_cons_self n rest)) (by omega)
  | succ f ihf =>
    intro ns
    induction ns with
    | nil =>
      intro st o hg hfuel hns hio hnd hord
      exact ⟨st, o, rfl, hg, hio, hnd, hord, ⟨[], by simp⟩,
        fun n hn => absurd hn (List.not_mem_nil n), fun x hx => hx⟩
    | cons n rest ihns =>
      intro st o hg hfuel hns hio hnd hord
      have hnkey : n ∈ g.map Prod.fst := hns n (List.mem_cons_self n rest)
      have hentry : (n, gdeps g n) ∈ g := gdeps_entry_mem hnkey
      have hdeps : depsOf st n = gdeps g n := by rw [depsOf_eq_gdeps, hg]
      have hfuel1 : ∀ m ∈ gdeps g n, rank m < f := fun m hm =>
        lt_of_lt_of_le (hrank _ hentry m hm)
          (Nat.lt_succ_iff.mp (hfuel n (List.mem_cons_self n rest)))
      obtain ⟨st1, o1, heq1, hg1, hio1, hnd1, hord1, ⟨t1, ht1⟩, hdepf, hmono1⟩ :=
        ihf (gdeps g n) st o hg hfuel1 (fun m hm => hclosed _ hentry m hm) hio hnd hord
      have hstep : visitM (f + 1) (n :: rest) st o
          = (if flagOf st1 n = true then visitStep (visitM f) rest st1 o1
             else visitStep (visitM f) rest (setFlag st1 n) (o1 ++ [n])) := by
        show visitStep (visitM f) (n :: rest) st o = _
        simp only [visitStep]
        rw [hdeps, heq1]
      cases hfl : flagOf st1 n with
      | true =>
        obtain ⟨st', o', heq2, hg2, hio2, hnd2, hord2, ⟨t2, ht2⟩, hflags2, hmono2⟩ :=
          ihns st1 o1 hg1 (fun m hm => hfuel m (List.mem_cons_of_mem n hm))
            (fun m hm => hns m (List.mem_cons_of_mem n hm)) hio1 hnd1 hord1
        refine ⟨st', o', ?_, hg2, hio2, hnd2, hord2,
          ⟨t1 ++ t2, by rw [ht2, ht1, List.append_assoc]⟩, ?_,
          fun x hx => hmono2 x (hmono1 x hx)⟩
        · rw [hstep, if_pos hfl]
          exact heq2
        · intro m hm
          rcases List.mem_cons.mp hm with h | h
          · subst h
            exact hmono2 m hfl
          · exact hflags2 m h
      | false =>
        have hnames1 : n ∈ tdNames st1 := by
          rw [← tdNames_eq_shape_keys, hg1]
          exact hnkey
        have hnotin : n ∉ o1 := fun hmem => by
          have h2 := (hio1 n).mpr hmem
          rw [hfl] at h2
          cases h2
        have hio2 : ∀ x, flagOf (setFlag st1 n) x = true ↔ x ∈ o1 ++ [n] := by
          intro x
          by_cases hx : x = n
          · subst hx
            simp [flagOf_setFlag_self hnames1]
          · rw [flagOf_setFlag_other (Ne.symm hx), hio1 x]
            simp [hx]
        have hnd2 : (o1 ++ [n]).Nodup :=
          List.Nodup.append hnd1 (List.nodup_singleton n)
            (fun a ha hb => by
              rw [List.mem_singleton] at hb
              exact hnotin (hb ▸ ha))
        have hord2 : ∀ T ∈ o1 ++ [n], ∀ R ∈ gdeps g T, R ≠ T →
            List.Sublist [R, T] (o1 ++ [n]) := by
          intro T hT R hR hne
          rcases List.mem_append.mp hT with h | h
          · exact (hord1 T h R hR hne).trans (List.sublist_append_left o1 [n])
          · rw [List.mem_singleton] at h
            subst h
            have hRmem : R ∈ o1 := (hio1 R).mp (hdepf R hR)
            exact List.Sublist.append (List.singleton_sublist.mpr hRmem)
              (List.Sublist.refl [T])
        have hmono12 : ∀ x, flagOf st1 x = true → flagOf (setFlag st1 n) x = true := by
          intro x hx
          by_cases h : x = n
          · subst h
            exact flagOf_setFlag_self hnames1
          · rw [flagOf_setFlag_other (Ne.symm h)]
            exact hx
        obtain ⟨st', o', heq2, hg2, hio2', hnd2', hord2', ⟨t2, ht2⟩, hflags2, hmono2⟩ :=
          ihns (setFlag st1 n) (o1 ++ [n])
            (by rw [tdShape_setFlag, hg1])
            (fun m hm => hfuel m (List.mem_cons_of_mem n hm))
            (fun m hm => hns m (List.mem_cons_of_mem n hm))
            hio2 hnd2 hord2
        refine ⟨st', o', ?_, hg2, hio2', hnd2', hord2',
          ⟨t1 ++ [n] ++ t2, by rw [ht2, ht1]; simp [List.append_assoc]⟩, ?_,
          fun x hx => hmono2 x (hmono12 x (hmono1 x hx))⟩
        · rw [hstep, if_neg (by simp [hfl])]
          exact heq2
        · intro m hm
          rcases List.mem_cons.mp hm with h | h
          · subst h
            exact hmono2 m (flagOf_setFlag_self hnames1)
          · exact hflags2 m h

/-- C1: for an acyclic constraint graph — witnessed, as usual, by a rank
function that every foreign-key edge strictly decreases — the traversal
of `getTableLoadOrder` terminates (some recursion depth suffices) and
the produced load order contains each table name exactly once; and for
every table and every dependency on a distinct table, the referenced
table's name appears at a strictly earlier position of the order.
`hnodup` reflects that object keys are unique and `hclosed` that every
constraint targets a table of the dump (src/db/backup.js lines
189-192). -/
theorem getTableLoadOrder_topological (st : List TableDesc) (rank : String → Nat)
    (hflags : ∀ t ∈ st, t.visited = false)
    (hnodup : (tdNames st).Nodup)
    (hclosed : ∀ t ∈ st, ∀ m ∈ t.deps, m ∈ tdNames st)
    (hrank : ∀ t ∈ st, ∀ m ∈ t.deps, rank m < rank t.name) :
    ∃ fuel st' o, getTableLoadOrderM st fuel = some (st', o)
      ∧ (∀ x ∈ o, x ∈ tdNames st)
      ∧ (∀ k ∈ tdNames st, o.count k = 1)
      ∧ (∀ t ∈ st, ∀ R ∈ t.deps, R ≠ t.name →
          ∃ i j : Nat, i < j ∧ o[i]? = some R ∧ o[j]? = some t.name) := by
  have hclosed' : ∀ p ∈ tdShape st, ∀ m ∈ p.2, m ∈ (tdShape st).map Prod.fst := by
    intro p hp m hm
    obtain ⟨t, ht, rfl⟩ := List.mem_map.mp hp
    rw [tdNames_eq_shape_keys]
    exact hclosed t ht m hm
  have hrank' : ∀ p ∈ tdShape st, ∀ m ∈ p.2, rank m < rank p.1 := by
    intro p hp m hm
    obtain ⟨t, ht, rfl⟩ := List.mem_map.mp hp
    exact hrank t ht m hm
  have hinit : ∀ x, flagOf st x = true ↔ x ∈ ([] : List String) := by
    intro x
    rw [flagOf_false_of_unflagged hflags x]
    simp
  have hfuel : ∀ n ∈ st.map TableDesc.name,
      rank n < ((tdNames st).map rank).sum + 1 := by
    intro n hn
    exact Nat.lt_succ_of_le
      (List.single_le_sum (fun x _ => Nat.zero_le x) _ (List.mem_map_of_mem rank hn))
  have hkeys : ∀ n ∈ st.map TableDesc.name, n ∈ (tdShape st).map Prod.fst := by
    intro n hn
    rw [tdNames_eq_shape_keys]
    exact hn
  obtain ⟨st1, o, heq, hg1, hio1, hnd1, hord1, _, hflagsNs, _⟩ :=
    visitM_sound (tdShape st) rank hclosed' hrank'
      (((tdNames st).map rank).sum + 1) (st.map TableDesc.name) st [] rfl
      hfuel hkeys hinit List.nodup_nil (by intro T hT; cases hT)
  have hnames1 : tdNames st1 = tdNames st := by
    rw [← tdNames_eq_shape_keys, hg1, tdNames_eq_shape_keys]
  refine ⟨((tdNames st).map rank).sum + 1, clearFlags st1, o, ?_, ?_, ?_, ?_⟩
  · simp [getTableLoadOrderM, heq]
  · intro x hx
    rw [← hnames1]
    exact flagOf_mem_names ((hio1 x).mpr hx)
  · intro k hk
    exact List.count_eq_one_of_mem hnd1 ((hio1 k).mp (hflagsNs k hk))
  · intro t ht R hR hne
    have hT : t.name ∈ o :=
      (hio1 t.name).mp (hflagsNs t.name (List.mem_map_of_mem TableDesc.name ht))
    have hRg : R ∈ gdeps (tdShape st) t.name := by
      rw [gdeps_of_nodup st hnodup t ht]
      exact hR
    exact sublist_pair_index (hord1 t.name hT R hRg hne)

/-- Witness for C1 at the spec's example scenario `stW` with the rank
function `rankW`: the hypotheses hold and the conclusion follows. -/
theorem getTableLoadOrder_topological_witness :
    ((∀ t ∈ stW, t.visited = false)
      ∧ (tdNames stW).Nodup
      ∧ (∀ t ∈ stW, ∀ m ∈ t.deps, m ∈ tdNames stW)
      ∧ (∀ t ∈ stW, ∀ m ∈ t.deps, rankW m < rankW t.name))
    ∧ ∃ fuel st' o, getTableLoadOrderM stW fuel = some (st', o)
      ∧ (∀ x ∈ o, x ∈ tdNames stW)
      ∧ (∀ k ∈ tdNames stW, o.count k = 1)
      ∧ (∀ t ∈ stW, ∀ R ∈ t.deps, R ≠ t.name →
          ∃ i j : Nat, i < j ∧ o[i]? = some R ∧ o[j]? = some t.name) :=
  ⟨⟨by decide, by decide, by decide, by decide⟩,
    getTableLoadOrder_topological stW rankW (by decide) (by decide) (by decide)
      (by decide)⟩

/-- Whenever the traversal returns, the store it returns has the shape
it started from: only `visited` flags were written. -/
lemma visitM_shape : ∀ (fuel : Nat) (ns : List String) (st : List TableDesc)
    (o : List String) (st1 : List TableDesc) (o1 : List String),
    visitM fuel ns st o = some (st1, o1) → tdShape st1 = tdShape st := by
  intro fuel
  induction fuel with
  | zero =>
    intro ns st o st1 o1 h
    cases ns with
    | nil =>
      cases h
      rfl
    | cons n rest => cases h
  | succ f ihf =>
    intro ns
    induction ns with
    | nil =>
      intro st o st1 o1 h
      cases h
      rfl
    | cons n rest ihns =>
      intro st o st1 o1 h
      have h' : visitStep (visitM f) (n :: rest) st o = some (st1, o1) := h
      simp only [visitStep] at h'
      rcases hd : visitM f (depsOf st n) st o with _ | ⟨st2, o2⟩ <;> rw [hd] at h'
      · cases h'
      · have hsh2 : tdShape st2 = tdShape st := ihf (depsOf st n) st o st2 o2 hd
        change (if flagOf st2 n = true then visitStep (visitM f) rest st2 o2
          else visitStep (visitM f) rest (setFlag st2 n) (o2 ++ [n])) = some (st1, o1) at h'
        cases hfl : flagOf st2 n with
        | true =>
          rw [if_pos hfl] at h'
          exact (ihns st2 o2 st1 o1 h').trans hsh2
        | false =>
          rw [if_neg (by simp [hfl])] at h'
          exact (ihns (setFlag st2 n) (o2 ++ [n]) st1 o1 h').trans
            ((tdShape_setFlag st2 n).trans hsh2)

/-- Two stores with the same shape are equal once the first has its
flags cleared and the second never had any set. -/
lemma clearFlags_eq_of_shape : ∀ (a b : List TableDesc), tdShape a = tdShape b →
    (∀ t ∈ b, t.visited = false) → clearFlags a = b := by
  intro a
  induction a with
  | nil =>
    intro b h _
    cases b with
    | nil => rfl
    | cons y b' => simp [tdShape] at h
  | cons x a' ih =>
    intro b h hb
    cases b with
    | nil => simp [tdShape] at h
    | cons y b' =>
      simp only [tdShape, List.map_cons, List.cons.injEq, Prod.mk.injEq] at h
      obtain ⟨⟨hn, hd⟩, hsh⟩ := h
      have hy : y.visited = false := hb y (List.mem_cons_self y b')
      simp only [clearFlags, List.map_cons]
      have hx : { x with visited := false } = y := by
        cases x
        cases y
        simp_all
      rw [hx]
      have := ih b' (by simpa [tdShape] using hsh) (fun t ht => hb t (List.mem_cons_of_mem _ ht))
      rw [show clearFlags a' = List.map (fun t => { t with visited := false }) a' from rfl]
        at this
      rw [this]

/-- Counterexample to C9: the traversal does write its bookkeeping onto
the shared descriptors.  Starting from the single table `A` with no
flags set, the store reached when the recursive worker returns — before
the `depth === 0` cleanup of the outer call — carries `visited = true`
on `A`'s descriptor: the shared table object was mutated during the
traversal. -/
theorem getTableLoadOrder_mutates_descriptors_cex :
    visitM 1 ["A"] [⟨"A", [], false⟩] [] = some ([⟨"A", [], true⟩], ["A"])
    ∧ ([⟨"A", [], true⟩] : List TableDesc) ≠ [⟨"A", [], false⟩] := by
  exact ⟨rfl, by decide⟩

/-- C9 as amended: `getTableLoadOrder` does mark visited state by
writing `visited` flags onto the shared table descriptors during the
traversal, but the outer call deletes every such flag before returning,
so a store whose descriptors carried no flags is returned exactly as it
was. -/
theorem getTableLoadOrder_restores_descriptors (st : List TableDesc) (fuel : Nat)
    (st' : List TableDesc) (o : List String)
    (hflags : ∀ t ∈ st, t.visited = false)
    (h : getTableLoadOrderM st fuel = some (st', o)) :
    st' = st := by
  rw [getTableLoadOrderM] at h
  rcases hv : visitM fuel (st.map TableDesc.name) st [] with _ | ⟨stM, oM⟩ <;>
    rw [hv] at h
  · cases h
  · simp only [Option.map_some'] at h
    have hpair := Option.some.inj h
    have hst : st' = clearFlags stM := (congrArg Prod.fst hpair).symm
    rw [hst]
    exact clearFlags_eq_of_shape stM st
      (visitM_shape fuel (st.map TableDesc.name) st [] stM oM hv) hflags

/-- Witness for the amended C9: a concrete run over the two-table store
returns the descriptors exactly as they were. -/
theorem getTableLoadOrder_restores_descriptors_witness :
    (∀ t ∈ stW, t.visited = false)
    ∧ getTableLoadOrderM stW 3 = some (stW, ["Customers", "Orders"])
    ∧ stW = stW :=
  ⟨by decide, by decide,
    getTableLoadOrder_restores_descriptors stW 3 stW ["Customers", "Orders"]
      (by decide) (by decide)⟩

end Sekurkopio
